import Mathlib

/-!
Shallow embedding of the `datacop` validation library (`validator.go`).

The Go `Validator` owns a `map[string][]ValidationError`.  We model the map
as an association list `Store := List (String × List ValidationError)`:
lookup is first-match, update replaces the entry in place or appends a new
key at the end, and `len(map)` is the number of entries.  A Go map can be
`nil` (the zero value of `Validator`), which reads like an empty map but is
explicitly initialized before any write; we model this with
`errors : Option Store` where `none` stands for the nil map.

Methods that mutate the validator through a pointer are modelled as
functions returning the updated validator; methods whose Go counterpart
returns a value and mutates return a pair.
-/

namespace DataCop

/-- Embedding of the Go `ValidationError` struct: a field name and a message. -/
structure ValidationError where
  field : String
  message : String
deriving DecidableEq, Repr

/-- The error store: association list standing for Go's `map[string][]ValidationError`. -/
abbrev Store := List (String × List ValidationError)

/-- Embedding of the Go constant `StandaloneErrorKey = "__standalone__"`. -/
def StandaloneErrorKey : String := "__standalone__"

/-- Embedding of the Go `Validator` struct; `none` models a nil (uninitialized) map. -/
structure Validator where
  errors : Option Store
deriving DecidableEq, Repr

/-- Embedding of Go `New()`: a validator with an initialized empty map. -/
def New : Validator := ⟨some []⟩

/-- The zero value of the Go `Validator` struct: its `errors` map is nil. -/
def zeroValidator : Validator := ⟨none⟩

/-- Reading view of the map. In Go, reads (`len`, lookup, `range`) on a nil map
behave exactly like reads on an empty map, so `none` reads as `[]`. -/
def Validator.store (v : Validator) : Store := v.errors.getD []

/-- Map lookup `s[f]` on the association list (first match; `[]` when absent,
matching Go's zero-value read of a missing key). -/
def storeGet : Store → String → List ValidationError
  | [], _ => []
  | (g, es) :: rest, f => if g = f then es else storeGet rest f

/-- Map update `s[f] = es` on the association list: replace the entry for `f`
in place, or add a new entry when `f` is absent. -/
def storeSet : Store → String → List ValidationError → Store
  | [], f, es => [(f, es)]
  | (g, gs) :: rest, f, es => if g = f then (f, es) :: rest else (g, gs) :: storeSet rest f es

/-- Embedding of `Validator.AddError`: initialize the map when nil, then
append `ValidationError{field, message}` to the slice at `field`. -/
def Validator.AddError (v : Validator) (f m : String) : Validator :=
  ⟨some (storeSet v.store f (storeGet v.store f ++ [⟨f, m⟩]))⟩

/-- Embedding of `Validator.AddStandaloneError`. -/
def Validator.AddStandaloneError (v : Validator) (m : String) : Validator :=
  v.AddError StandaloneErrorKey m

/-- Embedding of `Validator.Check`: on failure records the error; returns
`valid` unchanged together with the updated validator. -/
def Validator.Check (v : Validator) (valid : Bool) (f m : String) : Bool × Validator :=
  if valid then (valid, v) else (valid, v.AddError f m)

/-- Embedding of `Validator.CheckStandalone`. -/
def Validator.CheckStandalone (v : Validator) (valid : Bool) (m : String) : Bool × Validator :=
  if valid then (valid, v) else (valid, v.AddStandaloneError m)

/-- Embedding of `Validator.HasErrors`: `len(v.errors) > 0` (key count). -/
def Validator.HasErrors (v : Validator) : Bool :=
  !v.store.isEmpty

/-- Embedding of `Validator.HasErrorFor`: the key exists with a non-empty slice. -/
def Validator.HasErrorFor (v : Validator) (f : String) : Bool :=
  !(storeGet v.store f).isEmpty

/-- Embedding of `Validator.HasStandaloneErrors`. -/
def Validator.HasStandaloneErrors (v : Validator) : Bool :=
  v.HasErrorFor StandaloneErrorKey

/-- Embedding of `Validator.ErrorFor`: the field's messages joined by `", "`;
the empty string when the key is absent or its slice empty (Go returns `""`
on both, and joining the empty list also yields `""`). -/
def Validator.ErrorFor (v : Validator) (f : String) : String :=
  String.intercalate ", " ((storeGet v.store f).map (·.message))

/-- Embedding of `Validator.Errors`: for every field with at least one error,
the joined message string (the Go result map, modelled as an association list). -/
def Validator.Errors (v : Validator) : List (String × String) :=
  v.store.filterMap (fun p => if p.2.isEmpty then none else some (p.1, v.ErrorFor p.1))

/-- Embedding of `Validator.Merge`: initialize when nil, then for every field
of `other` append `other`'s slice onto this validator's slice at that field. -/
def Validator.Merge (v other : Validator) : Validator :=
  ⟨some (other.store.foldl (fun s p => storeSet s p.1 (storeGet s p.1 ++ p.2)) v.store)⟩

/-- Run of the `Merge` method recording the end state of both validators:
the Go method body never writes to `other`, so `other`'s end state is its
initial state. -/
def Validator.mergeRun (v other : Validator) : Validator × Validator :=
  (v.Merge other, other)

/-- Embedding of `Validator.Clear`: reset to a fresh empty map. -/
def Validator.Clear (_ : Validator) : Validator := ⟨some []⟩

/-- Shape of the JSON produced by `Validator.MarshalJSON`: an object with one
`"fields"` member holding a string map. -/
structure ValidatorJSON where
  fields : List (String × String)
deriving DecidableEq, Repr

/-- Embedding of `Validator.MarshalJSON`: builds the field-to-joined-message
map restricted to fields with at least one error and wraps it under `"fields"`. -/
def Validator.MarshalJSON (v : Validator) : ValidatorJSON :=
  ⟨v.store.filterMap (fun p => if p.2.isEmpty then none else some (p.1, v.ErrorFor p.1))⟩

/-- Decoding the serialized structure: read the `"fields"` member back. -/
def decodeValidatorJSON (j : ValidatorJSON) : List (String × String) :=
  j.fields

/-- Embedding of the Go `FieldValidation` struct (field chain). The Go `value`
has type `any`; we keep it as a type parameter. -/
structure FieldValidation (α : Type) where
  field : String
  value : α
  v : Validator

/-- Embedding of `Validator.Field`. -/
def Validator.Field (v : Validator) (name : String) (value : α) : FieldValidation α :=
  ⟨name, value, v⟩

/-- Embedding of `FieldValidation.Check`: forwards to the owning validator's
`Check` unconditionally and returns the chain. -/
def FieldValidation.Check (f : FieldValidation α) (valid : Bool) (m : String) :
    FieldValidation α :=
  { f with v := (f.v.Check valid f.field m).2 }

/-- Embedding of the Go `Group` struct. -/
structure Group where
  name : String
  v : Validator

/-- Embedding of `Validator.Group`. -/
def Validator.Group (v : Validator) (name : String) : Group :=
  ⟨name, v⟩

/-- Embedding of `Group.Field`: delegates to the validator's `Field` with
the composite name `group + "." + name`. -/
def Group.Field (g : Group) (name : String) (value : α) : FieldValidation α :=
  g.v.Field (g.name ++ "." ++ name) value

/-- Embedding of the Go `When` struct (conditional chain). -/
structure When (α : Type) where
  condition : Bool
  field : String
  value : α
  v : Validator

/-- Embedding of `FieldValidation.When`: starts a conditional chain with the
given running condition. -/
def FieldValidation.When (f : FieldValidation α) (condition : Bool) : When α :=
  ⟨condition, f.field, f.value, f.v⟩

/-- Embedding of `When.Check`: forwards to the validator's `Check` only when
the running condition is true; returns the chain either way. -/
def When.Check (w : When α) (valid : Bool) (m : String) : When α :=
  if w.condition then { w with v := (w.v.Check valid w.field m).2 } else w

/-- Embedding of `When.When`: narrows the running condition by logical AND. -/
def When.When (w : When α) (condition : Bool) : When α :=
  { w with condition := w.condition && condition }

/-- One call on a conditional chain: either a `When(c)` narrowing or a
`Check(valid, message)`. -/
inductive ChainOp where
  | whenOp (c : Bool)
  | checkOp (valid : Bool) (message : String)

/-- Execute a sequence of calls on a conditional chain, left to right. -/
def runChain (w : When α) : List ChainOp → When α
  | [] => w
  | .whenOp c :: rest => runChain (w.When c) rest
  | .checkOp b m :: rest => runChain (w.Check b m) rest

/-- Conjunction of all conditions passed to `When` calls in a call sequence. -/
def chainConds : List ChainOp → Bool
  | [] => true
  | .whenOp c :: rest => c && chainConds rest
  | .checkOp _ _ :: rest => chainConds rest

/-- Run a sequence of failing `Check(false, field, msg)` calls on a validator. -/
def runFalseChecks (v : Validator) (f : String) (msgs : List String) : Validator :=
  msgs.foldl (fun acc m => (acc.Check false f m).2) v

/-- Validator states reachable from `New()` through the mutating API. -/
inductive Reachable : Validator → Prop where
  | new : Reachable New
  | addError (f m : String) {v : Validator} : Reachable v → Reachable (v.AddError f m)
  | addStandaloneError (m : String) {v : Validator} :
      Reachable v → Reachable (v.AddStandaloneError m)
  | check (b : Bool) (f m : String) {v : Validator} :
      Reachable v → Reachable (v.Check b f m).2
  | checkStandalone (b : Bool) (m : String) {v : Validator} :
      Reachable v → Reachable (v.CheckStandalone b m).2
  | merge {v w : Validator} : Reachable v → Reachable w → Reachable (v.Merge w)
  | clear {v : Validator} : Reachable v → Reachable v.Clear

/-- Well-formedness a Go map enjoys automatically: every present key has a
non-empty slice, and keys are pairwise distinct. -/
def StoreWF (s : Store) : Prop :=
  (∀ p ∈ s, p.2 ≠ ([] : List ValidationError)) ∧ (s.map Prod.fst).Nodup

theorem storeGet_storeSet_self (s : Store) (f : String) (es : List ValidationError) :
    storeGet (storeSet s f es) f = es := by
  induction s with
  | nil => simp [storeSet, storeGet]
  | cons p rest ih =>
    obtain ⟨g, gs⟩ := p
    by_cases h : g = f
    · simp [storeSet, storeGet, h]
    · simp [storeSet, storeGet, h, ih]

theorem storeGet_storeSet_ne (s : Store) (f g : String) (es : List ValidationError)
    (h : g ≠ f) : storeGet (storeSet s f es) g = storeGet s g := by
  have hfg : ¬ f = g := fun hh => h hh.symm
  induction s with
  | nil => simp [storeSet, storeGet, hfg]
  | cons p rest ih =>
    obtain ⟨k, ks⟩ := p
    by_cases hk : k = f
    · subst hk
      simp [storeSet, storeGet, hfg]
    · by_cases hg : k = g
      · subst hg
        simp [storeSet, storeGet, hk]
      · simp [storeSet, storeGet, hk, hg, ih]

theorem mem_storeSet {p : String × List ValidationError} (s : Store) (f : String)
    (es : List ValidationError) (hp : p ∈ storeSet s f es) : p = (f, es) ∨ p ∈ s := by
  induction s with
  | nil => simpa [storeSet] using hp
  | cons q rest ih =>
    obtain ⟨k, ks⟩ := q
    by_cases hk : k = f
    · simp only [storeSet, if_pos hk, List.mem_cons] at hp
      rcases hp with h | h
      · exact Or.inl h
      · exact Or.inr (List.mem_cons_of_mem _ h)
    · simp only [storeSet, if_neg hk, List.mem_cons] at hp
      rcases hp with h | h
      · exact Or.inr (by rw [h]; exact List.mem_cons_self _ _)
      · rcases ih h with h' | h'
        · exact Or.inl h'
        · exact Or.inr (List.mem_cons_of_mem _ h')

theorem keys_storeSet (s : Store) (f : String) (es : List ValidationError) :
    (storeSet s f es).map Prod.fst =
      if f ∈ s.map Prod.fst then s.map Prod.fst else s.map Prod.fst ++ [f] := by
  induction s with
  | nil => simp [storeSet]
  | cons q rest ih =>
    obtain ⟨k, ks⟩ := q
    by_cases hk : k = f
    · subst hk
      simp [storeSet]
    · have hfk : ¬ f = k := fun hh => hk hh.symm
      simp only [storeSet, if_neg hk, List.map_cons, List.mem_cons]
      rw [ih]
      by_cases hmem : f ∈ rest.map Prod.fst
      · simp [hmem, hfk]
      · simp [hmem, hfk]

theorem storeGet_eq_nil_of_not_mem_keys {s : Store} {f : String}
    (h : f ∉ s.map Prod.fst) : storeGet s f = [] := by
  induction s with
  | nil => rfl
  | cons q rest ih =>
    obtain ⟨k, ks⟩ := q
    simp only [List.map_cons, List.mem_cons] at h
    push_neg at h
    have hkf : ¬ k = f := fun hh => h.1 hh.symm
    simp [storeGet, hkf, ih h.2]

theorem storeGet_of_mem {s : Store} {f : String} {es : List ValidationError}
    (hnd : (s.map Prod.fst).Nodup) (hm : (f, es) ∈ s) : storeGet s f = es := by
  induction s with
  | nil => simp at hm
  | cons q rest ih =>
    obtain ⟨k, ks⟩ := q
    simp only [List.map_cons, List.nodup_cons] at hnd
    rcases List.mem_cons.mp hm with h | h
    · injection h with h1 h2
      subst h1
      subst h2
      simp [storeGet]
    · have hk : ¬ k = f := by
        intro hkf
        subst hkf
        exact hnd.1 (List.mem_map_of_mem Prod.fst h)
      simp [storeGet, hk, ih hnd.2 h]

theorem storeWF_nil : StoreWF [] :=
  ⟨fun _ h => absurd h (List.not_mem_nil _), List.nodup_nil⟩

theorem storeWF_storeSet {s : Store} (h : StoreWF s) {f : String}
    {es : List ValidationError} (hes : es ≠ []) : StoreWF (storeSet s f es) := by
  constructor
  · intro p hp
    rcases mem_storeSet s f es hp with h' | h'
    · rw [h']
      exact hes
    · exact h.1 p h'
  · rw [keys_storeSet]
    by_cases hmem : f ∈ s.map Prod.fst
    · simpa [hmem] using h.2
    · simp only [if_neg hmem]
      exact List.Nodup.append h.2 (List.nodup_singleton f)
        (by simpa [List.disjoint_singleton] using hmem)

theorem storeWF_addError {v : Validator} (h : StoreWF v.store) (f m : String) :
    StoreWF (v.AddError f m).store := by
  have : (v.AddError f m).store
      = storeSet v.store f (storeGet v.store f ++ [⟨f, m⟩]) := rfl
  rw [this]
  exact storeWF_storeSet h (by simp)

theorem storeWF_mergeFold (l : List (String × List ValidationError)) :
    ∀ s : Store, StoreWF s → (∀ p ∈ l, p.2 ≠ ([] : List ValidationError)) →
      StoreWF (l.foldl (fun s p => storeSet s p.1 (storeGet s p.1 ++ p.2)) s) := by
  induction l with
  | nil => exact fun s hs _ => hs
  | cons q rest ih =>
    intro s hs hl
    simp only [List.foldl_cons]
    refine ih _ (storeWF_storeSet hs ?_) (fun p hp => hl p (List.mem_cons_of_mem _ hp))
    have hq : q.2 ≠ [] := hl q (List.mem_cons_self _ _)
    intro hcon
    exact hq (List.append_eq_nil.mp hcon).2

theorem reachable_storeWF {v : Validator} (h : Reachable v) : StoreWF v.store := by
  induction h with
  | new => exact storeWF_nil
  | addError f m _ ih => exact storeWF_addError ih f m
  | addStandaloneError m _ ih => exact storeWF_addError ih StandaloneErrorKey m
  | check b f m _ ih =>
    cases b with
    | false => exact storeWF_addError ih f m
    | true => exact ih
  | checkStandalone b m _ ih =>
    cases b with
    | false => exact storeWF_addError ih StandaloneErrorKey m
    | true => exact ih
  | merge _ _ ihv ihw => exact storeWF_mergeFold _ _ ihv (fun p hp => ihw.1 p hp)
  | clear _ _ => exact storeWF_nil

theorem storeGet_mergeFold (f : String) (l : List (String × List ValidationError)) :
    ∀ s : Store, (l.map Prod.fst).Nodup →
      storeGet (l.foldl (fun s p => storeSet s p.1 (storeGet s p.1 ++ p.2)) s) f
        = storeGet s f ++ storeGet l f := by
  induction l with
  | nil => intro s _; simp [storeGet]
  | cons q rest ih =>
    intro s hnd
    obtain ⟨k, ks⟩ := q
    simp only [List.map_cons, List.nodup_cons] at hnd
    simp only [List.foldl_cons]
    rw [ih _ hnd.2]
    by_cases hf : k = f
    · subst hf
      rw [storeGet_storeSet_self, storeGet_eq_nil_of_not_mem_keys hnd.1]
      simp [storeGet]
    · rw [storeGet_storeSet_ne _ _ _ _ (fun hh => hf hh.symm)]
      simp [storeGet, hf]

theorem whenCheck_condition {α : Type} (w : When α) (b : Bool) (m : String) :
    (w.Check b m).condition = w.condition := by
  unfold When.Check
  split <;> rfl

theorem whenCheck_field {α : Type} (w : When α) (b : Bool) (m : String) :
    (w.Check b m).field = w.field := by
  unfold When.Check
  split <;> rfl

theorem runChain_condition {α : Type} (ops : List ChainOp) :
    ∀ w : When α, (runChain w ops).condition = (w.condition && chainConds ops) := by
  induction ops with
  | nil => intro w; simp [runChain, chainConds]
  | cons op rest ih =>
    intro w
    cases op with
    | whenOp c =>
      simp only [runChain, chainConds]
      rw [ih]
      simp [When.When, Bool.and_assoc]
    | checkOp b m =>
      simp only [runChain, chainConds]
      rw [ih, whenCheck_condition]

theorem runChain_field {α : Type} (ops : List ChainOp) :
    ∀ w : When α, (runChain w ops).field = w.field := by
  induction ops with
  | nil => intro w; rfl
  | cons op rest ih =>
    intro w
    cases op with
    | whenOp c => exact ih _
    | checkOp b m => rw [runChain, ih, whenCheck_field]

theorem whenCheck_v {α : Type} (w : When α) (b : Bool) (m : String) :
    (w.Check b m).v = if w.condition then (w.v.Check b w.field m).2 else w.v := by
  unfold When.Check
  split <;> simp_all

theorem storeGet_addError_self (v : Validator) (f m : String) :
    storeGet (v.AddError f m).store f = storeGet v.store f ++ [⟨f, m⟩] := by
  have : (v.AddError f m).store
      = storeSet v.store f (storeGet v.store f ++ [⟨f, m⟩]) := rfl
  rw [this, storeGet_storeSet_self]

theorem storeGet_addError_ne (v : Validator) (f m : String) {g : String} (h : g ≠ f) :
    storeGet (v.AddError f m).store g = storeGet v.store g := by
  have : (v.AddError f m).store
      = storeSet v.store f (storeGet v.store f ++ [⟨f, m⟩]) := rfl
  rw [this, storeGet_storeSet_ne _ _ _ _ h]

theorem runFalseChecks_get (f : String) (msgs : List String) :
    ∀ v : Validator, storeGet (runFalseChecks v f msgs).store f
      = storeGet v.store f ++ msgs.map (fun m => (⟨f, m⟩ : ValidationError)) := by
  induction msgs with
  | nil => intro v; simp [runFalseChecks]
  | cons m rest ih =>
    intro v
    simp only [runFalseChecks, List.foldl_cons] at *
    rw [ih]
    simp [Validator.Check, storeGet_addError_self]

/-- C4: `Validator.Check(valid, field, message)` returns `valid` unchanged; when
`valid` is false it appends `ValidationError{field, message}` to the sequence at
`field` (creating it if absent) and leaves every other field untouched; when
`valid` is true the error store is left completely unchanged; it is a total
function, so it never fails. -/
theorem validator_check_spec (v : Validator) (b : Bool) (f m : String) :
    ((v.Check b f m).1 = b)
    ∧ ((v.Check true f m).2 = v)
    ∧ (∀ g, storeGet ((v.Check false f m).2).store g =
        if g = f then storeGet v.store g ++ [⟨f, m⟩] else storeGet v.store g) := by
  refine ⟨?_, rfl, ?_⟩
  · cases b <;> rfl
  · intro g
    by_cases hg : g = f
    · subst hg
      simp [Validator.Check, storeGet_addError_self]
    · simp [Validator.Check, storeGet_addError_ne v f m hg, hg]

/-- C5: on a fresh validator, any sequence of failing `Check(false, field, msg)`
calls on one field makes `ErrorFor(field)` the messages joined by ", " in call
order; and `ErrorFor` of any field with no recorded errors is the empty string. -/
theorem errorFor_join_spec :
    (∀ (f : String) (msgs : List String),
        (runFalseChecks New f msgs).ErrorFor f = String.intercalate ", " msgs)
    ∧ (∀ (v : Validator) (f : String), v.HasErrorFor f = false → v.ErrorFor f = "") := by
  constructor
  · intro f msgs
    unfold Validator.ErrorFor
    rw [runFalseChecks_get]
    have hnew : storeGet New.store f = [] := rfl
    rw [hnew, List.nil_append, List.map_map]
    have hcomp : ((fun x : ValidationError => x.message) ∘ fun m => ValidationError.mk f m)
        = id := rfl
    rw [hcomp, List.map_id]
  · intro v f h
    unfold Validator.HasErrorFor at h
    unfold Validator.ErrorFor
    have hnil : storeGet v.store f = [] := by
      cases hs : storeGet v.store f with
      | nil => rfl
      | cons a l =>
        rw [hs] at h
        simp at h
    rw [hnil]
    rfl

/-- Witness for C5 at a concrete field of a fresh validator. -/
theorem errorFor_join_spec_witness :
    New.HasErrorFor "x" = false ∧ New.ErrorFor "x" = "" :=
  ⟨by decide, errorFor_join_spec.2 New "x" (by decide)⟩

/-- C3: a `Check` issued directly on a field chain always forwards to the
validator's `Check` (recording on failure), unaffected by conditions introduced
later; concretely, `Field(f, v).Check(false, "x").When(false).Check(false, "y")`
on a fresh validator yields `ErrorFor(f) = "x"`. -/
theorem fieldChain_check_unconditional :
    (∀ (α : Type) (fc : FieldValidation α) (b : Bool) (m : String),
        (fc.Check b m).v = (fc.v.Check b fc.field m).2 ∧ (fc.Check b m).field = fc.field)
    ∧ (∀ (f : String) (val : String),
        ((((New.Field f val).Check false "x").When false).Check false "y").v.ErrorFor f
          = "x") := by
  constructor
  · intro α fc b m
    exact ⟨rfl, rfl⟩
  · intro f val
    simp [Validator.Field, FieldValidation.Check, FieldValidation.When, When.Check,
      Validator.Check, Validator.AddError, Validator.store, New, storeSet, storeGet,
      Validator.ErrorFor]
    decide

/-- C8: a group delegates to the validator's `Field` with the composite name
`group ++ "." ++ name`; concretely `Group("user").Field("name", "")
.Check(false, "required")` on a fresh validator marks `"user.name"` and leaves
`"name"` unmarked. -/
theorem group_field_spec :
    (∀ (α : Type) (v : Validator) (g n : String) (val : α),
        (v.Group g).Field n val = v.Field (g ++ "." ++ n) val)
    ∧ ((((New.Group "user").Field "name" "").Check false "required").v.HasErrorFor
        "user.name" = true)
    ∧ ((((New.Group "user").Field "name" "").Check false "required").v.HasErrorFor
        "name" = false) := by
  refine ⟨fun α v g n val => rfl, by decide, by decide⟩

/-- C10: the zero-valued validator (nil map) is fully usable: `AddError` and
`Merge` initialize the store and produce exactly the validator `New()` would
produce, every observation treats it exactly like a fresh validator, and every
operation is a total function, so none fails on the zero value. -/
theorem zero_validator_spec :
    (zeroValidator.store = New.store)
    ∧ (∀ f m, zeroValidator.AddError f m = New.AddError f m)
    ∧ (∀ other, zeroValidator.Merge other = New.Merge other)
    ∧ (∀ b f m, (zeroValidator.Check b f m).1 = b
        ∧ (zeroValidator.Check b f m).2.store = (New.Check b f m).2.store)
    ∧ (zeroValidator.HasErrors = New.HasErrors)
    ∧ (∀ f, zeroValidator.ErrorFor f = New.ErrorFor f
        ∧ zeroValidator.HasErrorFor f = New.HasErrorFor f)
    ∧ (zeroValidator.Errors = New.Errors)
    ∧ (zeroValidator.MarshalJSON = New.MarshalJSON)
    ∧ (zeroValidator.Clear = New.Clear) := by
  refine ⟨rfl, fun f m => rfl, fun other => rfl, ?_, rfl, fun f => ⟨rfl, rfl⟩, rfl, rfl, rfl⟩
  intro b f m
  cases b <;> exact ⟨rfl, rfl⟩

/-- The spec's literal conditional scenario, run on a fresh validator:
`Field("f", "v").When(true).Check(false, "a").When(false).Check(false, "b")
.When(true).Check(false, "c")`. -/
def chainScenario : When String :=
  ((((((New.Field "f" "v").When true).Check false "a").When false).Check false
    "b").When true).Check false "c"

/-- C2 counterexample: after the scenario the messages recorded for `"f"` are
not `["a", "c"]` — the third `Check` is gated by `(true && false) && true =
false`, so `"c"` is never recorded. -/
theorem chain_scenario_counterexample :
    (storeGet chainScenario.v.store "f").map ValidationError.message ≠ ["a", "c"] := by
  decide

/-- C2 amended: after the call sequence `Field(f, v).When(true).Check(false,
"a").When(false).Check(false, "b").When(true).Check(false, "c")` on a fresh
validator, the error set for `f` is exactly `["a"]`: neither `"b"` nor `"c"`
is recorded, because the running condition from the second `When` on is false
and stays false. -/
theorem chain_scenario_amended :
    ((storeGet chainScenario.v.store "f").map ValidationError.message = ["a"])
    ∧ (chainScenario.v.ErrorFor "f" = "a")
    ∧ (chainScenario.v.HasErrorFor "f" = true)
    ∧ (chainScenario.condition = false) := by
  refine ⟨by decide, by decide, by decide, by decide⟩

/-- C1: in a conditional chain started by `When(c0)` and continued by any
sequence of `When` and `Check` calls, the running condition always equals the
conjunction of `c0` with every condition passed to a `When` so far; a `Check`
forwards to the validator's `Check` exactly when that conjunction is true, and
records the error exactly when it forwards with `valid = false`; and the
condition of any extension of the chain is the current condition ANDed with
the later `When` conditions, so once false it stays false for every
subsequent `Check`. -/
theorem conditional_chain_spec {α : Type} (fc : FieldValidation α) (c0 : Bool)
    (ops : List ChainOp) (b : Bool) (m : String) :
    ((runChain (fc.When c0) ops).condition = (c0 && chainConds ops))
    ∧ (((runChain (fc.When c0) ops).Check b m).v
        = (if (c0 && chainConds ops) = true
            then ((runChain (fc.When c0) ops).v.Check b fc.field m).2
            else (runChain (fc.When c0) ops).v))
    ∧ (storeGet (((runChain (fc.When c0) ops).Check b m).v.store) fc.field
        = storeGet ((runChain (fc.When c0) ops).v.store) fc.field
          ++ (if (c0 && chainConds ops && !b) = true then [⟨fc.field, m⟩] else []))
    ∧ (∀ more, (runChain (runChain (fc.When c0) ops) more).condition
        = ((c0 && chainConds ops) && chainConds more)) := by
  have hcond : (runChain (fc.When c0) ops).condition = (c0 && chainConds ops) := by
    rw [runChain_condition]
    rfl
  have hfield : (runChain (fc.When c0) ops).field = fc.field := by
    rw [runChain_field]
    rfl
  refine ⟨hcond, ?_, ?_, ?_⟩
  · rw [whenCheck_v, hcond, hfield]
  · rw [whenCheck_v, hcond, hfield]
    cases hc : (c0 && chainConds ops) with
    | false => simp [hc]
    | true =>
      cases b with
      | true => simp [Validator.Check]
      | false => simp [Validator.Check, storeGet_addError_self]
  · intro more
    rw [runChain_condition, hcond]

/-- C6: merging appends, per field, `other`'s error sequence after this
validator's existing sequence, preserving `other`'s internal order; the method
run leaves `other` exactly as it was; and afterwards every field that had
errors in either validator has errors in the merged one. -/
theorem merge_spec (v1 v2 : Validator) (hnd : (v2.store.map Prod.fst).Nodup) :
    (∀ f, storeGet (v1.Merge v2).store f = storeGet v1.store f ++ storeGet v2.store f)
    ∧ ((v1.mergeRun v2).2 = v2)
    ∧ (∀ f, (v1.HasErrorFor f || v2.HasErrorFor f) = true
        → (v1.Merge v2).HasErrorFor f = true) := by
  have hget : ∀ f, storeGet (v1.Merge v2).store f
      = storeGet v1.store f ++ storeGet v2.store f := by
    intro f
    have hm : (v1.Merge v2).store
        = v2.store.foldl (fun s p => storeSet s p.1 (storeGet s p.1 ++ p.2)) v1.store := rfl
    rw [hm, storeGet_mergeFold f _ _ hnd]
  refine ⟨hget, rfl, ?_⟩
  intro f h
  unfold Validator.HasErrorFor at h ⊢
  rw [hget]
  have hor : storeGet v1.store f ≠ [] ∨ storeGet v2.store f ≠ [] := by
    by_contra hcon
    push_neg at hcon
    rw [hcon.1, hcon.2] at h
    simp at h
  have hne : storeGet v1.store f ++ storeGet v2.store f ≠ [] := by
    intro hcon
    rw [List.append_eq_nil] at hcon
    rcases hor with h' | h'
    · exact h' hcon.1
    · exact h' hcon.2
  cases hl : storeGet v1.store f ++ storeGet v2.store f with
  | nil => exact absurd hl hne
  | cons x xs => rfl

/-- Witness for C6 on two concrete one-field validators with distinct fields. -/
theorem merge_spec_witness :
    ((New.AddError "a" "m").Merge (New.AddError "b" "n")).HasErrorFor "b" = true :=
  (merge_spec (New.AddError "a" "m") (New.AddError "b" "n") (by decide)).2.2 "b" (by decide)

/-- C7: in every validator state reachable from `New()` via `AddError`,
`AddStandaloneError`, `Check`, `CheckStandalone`, `Merge`, and `Clear`, every
key present in the error store has at least one error, and `HasErrors` is true
exactly when the store has a key with a non-empty sequence. -/
theorem reachable_invariant_spec (v : Validator) (h : Reachable v) :
    (∀ p ∈ v.store, p.2 ≠ ([] : List ValidationError))
    ∧ (v.HasErrors = true ↔ ∃ p ∈ v.store, p.2 ≠ ([] : List ValidationError)) := by
  have hwf := reachable_storeWF h
  refine ⟨hwf.1, ?_⟩
  constructor
  · intro hh
    cases hs : v.store with
    | nil =>
      unfold Validator.HasErrors at hh
      rw [hs] at hh
      simp at hh
    | cons q rest =>
      exact ⟨q, List.mem_cons_self _ _,
        hwf.1 q (by rw [hs]; exact List.mem_cons_self _ _)⟩
  · rintro ⟨p, hp, -⟩
    unfold Validator.HasErrors
    cases hs : v.store with
    | nil =>
      rw [hs] at hp
      exact absurd hp (List.not_mem_nil _)
    | cons q rest => rfl

/-- Witness for C7 at a concrete reachable state with one recorded error. -/
theorem reachable_invariant_spec_witness :
    (New.AddError "f" "m").HasErrors = true :=
  (reachable_invariant_spec _ (Reachable.addError "f" "m" Reachable.new)).2.mpr
    ⟨⟨"f", [⟨"f", "m"⟩]⟩, by decide, by decide⟩

/-- C9: for every reachable validator state, serialization produces the
`fields` structure holding exactly the `Errors()` map — every serialized entry
is a field with at least one error carrying its joined message — and decoding
the serialized structure returns exactly `Errors()`. -/
theorem marshal_roundtrip_spec (v : Validator) (h : Reachable v) :
    (decodeValidatorJSON v.MarshalJSON = v.Errors)
    ∧ (∀ p ∈ v.MarshalJSON.fields, v.HasErrorFor p.1 = true ∧ p.2 = v.ErrorFor p.1) := by
  have hwf := reachable_storeWF h
  refine ⟨rfl, ?_⟩
  intro p hp
  unfold Validator.MarshalJSON at hp
  simp only [List.mem_filterMap] at hp
  obtain ⟨q, hq, hqe⟩ := hp
  by_cases hemp : q.2.isEmpty = true
  · rw [if_pos hemp] at hqe
    exact absurd hqe (by simp)
  · rw [if_neg hemp] at hqe
    injection hqe with hqe
    subst hqe
    have hqmem : (q.1, q.2) ∈ v.store := by
      rw [Prod.mk.eta]
      exact hq
    have hget : storeGet v.store q.1 = q.2 := storeGet_of_mem hwf.2 hqmem
    constructor
    · unfold Validator.HasErrorFor
      rw [hget]
      cases hb : q.2.isEmpty with
      | true => exact absurd hb hemp
      | false => rfl
    · rfl

/-- Witness for C9 at a concrete reachable state with one recorded error. -/
theorem marshal_roundtrip_spec_witness :
    decodeValidatorJSON (New.AddError "f" "m").MarshalJSON = (New.AddError "f" "m").Errors :=
  (marshal_roundtrip_spec _ (Reachable.addError "f" "m" Reachable.new)).1

end DataCop
